import Mathlib

set_option maxRecDepth 4000

/-!
Verification of the threshold-signature demo client
(`src/backend/python-scripts/src/demo_sign.py`) of the
Sentinel-Safe/sentinel-safe-wallet repository.

Python strings are modelled as `List Char` (a Python `str` is a sequence of
code points), Python `bytes` as `List Nat` with entries below 256, and
fallible code as `Except`/`Option`.
-/

/-- Value of a hexadecimal digit character, as accepted by Python
`bytes.fromhex` (digits, lowercase and uppercase letters). -/
def hexVal (c : Char) : Option Nat :=
  if 48 ≤ c.toNat ∧ c.toNat ≤ 57 then some (c.toNat - 48)
  else if 97 ≤ c.toNat ∧ c.toNat ≤ 102 then some (c.toNat - 87)
  else if 65 ≤ c.toNat ∧ c.toNat ≤ 70 then some (c.toNat - 55)
  else none

/-- The six ASCII whitespace characters that CPython `Py_ISSPACE` recognises
and `bytes.fromhex` skips between byte pairs. -/
def isPySpace (c : Char) : Bool :=
  c = ' ' || c = '\t' || c = '\n' || c = '\x0b' || c = '\x0c' || c = '\r'

/-- Python `bytes.fromhex`: skip ASCII whitespace before each byte, then read
two adjacent hex digits; any other shape raises `ValueError` (here `none`). -/
def pyFromHex : List Char → Option (List Nat)
  | [] => some []
  | c :: rest =>
    if isPySpace c then pyFromHex rest
    else
      match hexVal c with
      | none => none
      | some hi =>
        match rest with
        | [] => none
        | d :: rest2 =>
          match hexVal d with
          | none => none
          | some lo => (pyFromHex rest2).map (fun bs => (16 * hi + lo) :: bs)

/-- Python `str.zfill(w)`: left-pad with `'0'` to width `w`, keeping a leading
sign character in front of the padding. -/
def pyZfill (s : List Char) (w : Nat) : List Char :=
  if w ≤ s.length then s
  else
    match s with
    | [] => List.replicate w '0'
    | c :: rest =>
      if c = '+' || c = '-' then c :: (List.replicate (w - s.length) '0' ++ rest)
      else List.replicate (w - s.length) '0' ++ (c :: rest)

/-- UTF-8 encoding of one character (Python `str.encode()` on one code
point). -/
def utf8Char (c : Char) : List Nat :=
  let n := c.toNat
  if n < 128 then [n]
  else if n < 2048 then [192 ||| (n >>> 6), 128 ||| (n &&& 63)]
  else if n < 65536 then
    [224 ||| (n >>> 12), 128 ||| ((n >>> 6) &&& 63), 128 ||| (n &&& 63)]
  else
    [240 ||| (n >>> 18), 128 ||| ((n >>> 12) &&& 63),
     128 ||| ((n >>> 6) &&& 63), 128 ||| (n &&& 63)]

/-- UTF-8 encoding of a string (Python `str.encode()`). -/
def utf8Encode (s : List Char) : List Nat := (s.map utf8Char).flatten

/-- 64-bit left rotation on `Nat` values below `2 ^ 64`. -/
def rotl64 (n k : Nat) : Nat :=
  ((n <<< (k % 64)) ||| (n >>> (64 - k % 64))) % (2 ^ 64)

/-- Keccak round constants for the 24 rounds of keccak-f[1600]. -/
def keccakRC : List Nat :=
  [0x1,
   0x8082,
   0x800000000000808a,
   0x8000000080008000,
   0x808b,
   0x80000001,
   0x8000000080008081,
   0x8000000000008009,
   0x8a,
   0x88,
   0x80008009,
   0x8000000a,
   0x8000808b,
   0x800000000000008b,
   0x8000000000008089,
   0x8000000000008003,
   0x8000000000008002,
   0x8000000000000080,
   0x800a,
   0x800000008000000a,
   0x8000000080008081,
   0x8000000000008080,
   0x80000001,
   0x8000000080008008]

/-- Keccak rho rotation offsets, stored transposed: the offset of lane
`(x, y)` sits at index `y + 5 * x`. -/
def keccakRho : List Nat :=
  [0, 36, 3, 41, 18,
   1, 44, 10, 45, 2,
   62, 6, 43, 15, 61,
   28, 55, 25, 21, 56,
   27, 20, 39, 8, 14]

/-- Lane `(x, y)` of a keccak state stored as 25 lanes indexed `x + 5 * y`. -/
def lane (s : List Nat) (x y : Nat) : Nat := s.getD (x % 5 + 5 * (y % 5)) 0

/-- Keccak theta step. -/
def keccakTheta (s : List Nat) : List Nat :=
  let c := (List.range 5).map (fun x =>
    (lane s x 0) ^^^ (lane s x 1) ^^^ (lane s x 2) ^^^ (lane s x 3) ^^^ (lane s x 4))
  let d := (List.range 5).map (fun x =>
    (c.getD ((x + 4) % 5) 0) ^^^ rotl64 (c.getD ((x + 1) % 5) 0) 1)
  (List.range 25).map (fun i => (s.getD i 0) ^^^ (d.getD (i % 5) 0))

/-- Keccak rho and pi steps: output lane `(X, Y)` is input lane
`(X + 3 Y, X)` rotated by its rho offset. -/
def keccakRhoPi (s : List Nat) : List Nat :=
  (List.range 25).map (fun i =>
    let xo := i % 5
    let yo := i / 5
    let x := (xo + 3 * yo) % 5
    let y := xo
    rotl64 (lane s x y) (keccakRho.getD (y + 5 * x) 0))

/-- Keccak chi step. -/
def keccakChi (s : List Nat) : List Nat :=
  (List.range 25).map (fun i =>
    let x := i % 5
    let y := i / 5
    (lane s x y) ^^^ (((lane s (x + 1) y) ^^^ (2 ^ 64 - 1)) &&& (lane s (x + 2) y)))

/-- Keccak iota step: xor the round constant into lane (0,0). -/
def keccakIota (s : List Nat) (rc : Nat) : List Nat :=
  ((s.headD 0) ^^^ rc) :: s.tail

/-- The keccak-f[1600] permutation: 24 rounds of theta, rho, pi, chi, iota. -/
def keccakF (s : List Nat) : List Nat :=
  keccakRC.foldl (fun st rc => keccakIota (keccakChi (keccakRhoPi (keccakTheta st))) rc) s

/-- Original Keccak multi-rate padding (domain byte 0x01), as used by
Ethereum keccak-256: rate 136 bytes. -/
def keccakPad (msg : List Nat) : List Nat :=
  let q := 136 - msg.length % 136
  if q = 1 then msg ++ [0x81]
  else msg ++ (0x01 :: (List.replicate (q - 2) 0 ++ [0x80]))

/-- Interpret up to eight bytes as a little-endian 64-bit lane. -/
def bytesToLane (bs : List Nat) : Nat :=
  bs.foldr (fun b acc => b + 256 * acc) 0

/-- Absorb one 136-byte block: xor its 17 lanes into the state and permute. -/
def absorbBlock (st block : List Nat) : List Nat :=
  let lanes := (List.range 17).map (fun j => bytesToLane ((block.drop (8 * j)).take 8))
  keccakF ((List.range 25).map (fun i =>
    (st.getD i 0) ^^^ (if i < 17 then lanes.getD i 0 else 0)))

/-- Ethereum keccak-256 of a byte string: pad, absorb the 136-byte blocks,
and squeeze the first 32 bytes of the final state. -/
def keccak256 (msg : List Nat) : List Nat :=
  let padded := keccakPad msg
  let final := (List.range (padded.length / 136)).foldl
    (fun st j => absorbBlock st ((padded.drop (136 * j)).take 136))
    (List.replicate 25 0)
  (List.range 32).map (fun i => (final.getD (i / 8) 0 >>> (8 * (i % 8))) % 256)

/-- The error outcomes of `sign_message_with_key`'s digest handling:
the explicit 32-byte length check (`ValueError("Hash must be exactly 32
bytes, got n")`) and the `ValueError` that `bytes.fromhex` raises on
non-hexadecimal input. -/
inductive NormError where
  | invalidDigestLength : Nat → NormError
  | hexDecodeError : NormError
deriving DecidableEq

/-- Whether a Python string starts with `"0x"` (`str.startswith("0x")`). -/
def startsWith0x : List Char → Bool
  | a :: b :: _ => a = '0' && b = 'x'
  | _ => false

/-- The repair of a short hash string in `sign_message_with_key`
(`demo_sign.py` lines 156-159): add a `0x` prefix if absent, and zero-fill
the payload to 64 hex characters when the prefixed string is still shorter
than 66 characters. -/
def repairShort (mh : List Char) : List Char :=
  let mh1 := if startsWith0x mh then mh else '0' :: 'x' :: mh
  if mh1.length < 66 then '0' :: 'x' :: pyZfill (mh1.drop 2) 64 else mh1

/-- The `message_bytes` computation of `sign_message_with_key`
(`demo_sign.py` lines 141-160): a 66-character `0x`-prefixed string is hex
decoded; a longer string is keccak-hashed as UTF-8 text; a shorter string
gains a `0x` prefix if absent, is zero-filled to 64 hex characters when
still short, and is hex decoded. -/
def messageBytes (mh : List Char) : Except NormError (List Nat) :=
  if mh.length = 66 ∧ startsWith0x mh then
    match pyFromHex (mh.drop 2) with
    | some bs => .ok bs
    | none => .error .hexDecodeError
  else if 66 < mh.length then
    .ok (keccak256 (utf8Encode mh))
  else
    match pyFromHex ((repairShort mh).drop 2) with
    | some bs => .ok bs
    | none => .error .hexDecodeError

/-- Digest normalization of `sign_message_with_key`
(`demo_sign.py` lines 140-163): the `message_bytes` computation followed by
the exact-32-bytes check of lines 162-163. -/
def normalizeDigest (mh : List Char) : Except NormError (List Nat) :=
  match messageBytes mh with
  | .ok bs => if bs.length ≠ 32 then .error (.invalidDigestLength bs.length) else .ok bs
  | .error e => .error e


/-- Lowercase hexadecimal digit character for a value below 16 (the encoding
Python `bytes.hex()` uses). -/
def hexDigitLower (n : Nat) : Char :=
  if n < 10 then Char.ofNat (48 + n) else Char.ofNat (87 + n)

/-- Two lowercase hex characters for one byte (Python `bytes.hex()` per
byte). -/
def byteToHexLower (b : Nat) : List Char := [hexDigitLower (b / 16), hexDigitLower (b % 16)]

/-- Lowercase hexadecimal encoding of a byte string (Python `bytes.hex()`). -/
def hexEncodeBytes (bs : List Nat) : List Char := (bs.map byteToHexLower).flatten

/-- Big-endian fixed-width byte serialization of a natural number
(Python `int.to_bytes(len, "big")`): the first byte holds the highest
8 bits. -/
def toBytesBE : Nat → Nat → List Nat
  | 0, _ => []
  | len + 1, n => ((n >>> (8 * len)) % 256) :: toBytesBE len n

/-- Big-endian interpretation of a byte string as a natural number. -/
def beBytesToNat (bs : List Nat) : Nat := bs.foldl (fun acc b => 256 * acc + b) 0

/-- Serialization of an ECDSA signature as in `sign_message_with_key`
(`demo_sign.py` lines 177-181): `r.to_bytes(32, "big") + s.to_bytes(32,
"big") + bytes([v])`. -/
def serializeSignature (r s v : Nat) : List Nat :=
  toBytesBE 32 r ++ toBytesBE 32 s ++ [v]

/-- Hex text form of a signature as returned by `sign_message_with_key`
(`demo_sign.py` line 183): `"0x" + sig_hex.hex()`. -/
def sigToHexText (sig : List Nat) : List Char := '0' :: 'x' :: hexEncodeBytes sig

/-- Modelled from the spec: the states `Open → Ready → Executed` of the
Quorum Collector (spec section 4.3). The collector itself runs in the
orchestrator backend behind the `/api/v1` HTTP interface, which is not part
of the sources under `src/`. -/
inductive QStatus where
  | Open
  | Ready
  | Executed
deriving DecidableEq

/-- Modelled from the spec: `QuorumState` (spec section 3) for one proposal:
threshold, total number of signers, the collected signer identities in
arrival order (keyed by identity, so no duplicates), and whether execution
has fired. The orchestrator holding this state is not under `src/`. -/
structure QuorumState where
  threshold : Nat
  totalSigners : Nat
  collected : List String
  hasExecuted : Bool
deriving DecidableEq

/-- Number of collected signatures. -/
def QuorumState.count (qs : QuorumState) : Nat := qs.collected.length

/-- Modelled from the spec: the derived state of the collector — `Executed`
once execution fired, `Ready` once the threshold is reached, `Open`
otherwise. -/
def QuorumState.status (qs : QuorumState) : QStatus :=
  if qs.hasExecuted then .Executed
  else if qs.threshold ≤ qs.count then .Ready
  else .Open

/-- Modelled from the spec: the initial collector state created alongside a
proposal, with no collected signatures. -/
def initialQuorum (threshold totalSigners : Nat) : QuorumState :=
  ⟨threshold, totalSigners, [], false⟩

/-- Errors of `submit` (spec sections 4.3 and 7). -/
inductive SubmitError where
  | invalidSignature
  | duplicateSigner
deriving DecidableEq

/-- Errors of `execute` (spec sections 4.3 and 7). -/
inductive ExecuteError where
  | quorumNotMet
  | alreadyExecuted
deriving DecidableEq

/-- Modelled from the spec: `submit(signer_identity, signature)` of the
Quorum Collector (spec section 4.3), which is implemented by the
orchestrator backend and absent from `src/`. Signature verification against
the proposal digest is abstracted as a boolean predicate `verify`. The
result pairs the outcome with the post-state; rejections return the input
state unchanged. -/
def submit (verify : String → List Nat → Bool) (qs : QuorumState)
    (signerId : String) (sig : List Nat) : Except SubmitError Unit × QuorumState :=
  if verify signerId sig = false then (.error .invalidSignature, qs)
  else if signerId ∈ qs.collected then (.error .duplicateSigner, qs)
  else (.ok (), { qs with collected := qs.collected ++ [signerId] })

/-- Modelled from the spec: `execute()` of the Quorum Collector (spec
section 4.3), implemented by the orchestrator backend and absent from
`src/`: only valid from `Ready`; fails with `QuorumNotMet` from `Open` and
with `AlreadyExecuted` from `Executed`; the `Ready → Executed` transition is
the single point that triggers the external execution. -/
def executeQuorum (qs : QuorumState) : Except ExecuteError Unit × QuorumState :=
  if qs.hasExecuted then (.error .alreadyExecuted, qs)
  else if qs.count < qs.threshold then (.error .quorumNotMet, qs)
  else (.ok (), { qs with hasExecuted := true })

/-- Folding a list of submissions through the collector, keeping only the
evolving state. -/
def submitAll (verify : String → List Nat → Bool) (sigOf : String → List Nat)
    (qs : QuorumState) (ids : List String) : QuorumState :=
  ids.foldl (fun st signerId => (submit verify st signerId (sigOf signerId)).2) qs

theorem hexVal_lt {c : Char} {v : Nat} (h : hexVal c = some v) : v < 16 := by
  unfold hexVal at h
  split_ifs at h with h1 h2 h3 <;> simp_all <;> omega

theorem hexVal_toNat_ge {c : Char} {v : Nat} (h : hexVal c = some v) : 48 ≤ c.toNat := by
  unfold hexVal at h
  split_ifs at h with h1 h2 h3 <;> simp_all <;> omega

theorem isPySpace_toNat {c : Char} (h : isPySpace c = true) : c.toNat < 48 := by
  unfold isPySpace at h
  simp only [Bool.or_eq_true, decide_eq_true_eq] at h
  rcases h with ((((h | h) | h) | h) | h) | h <;> subst h <;> decide

theorem hex_not_space {c : Char} {v : Nat} (h : hexVal c = some v) : isPySpace c = false := by
  cases hs : isPySpace c with
  | false => rfl
  | true => exact absurd (hexVal_toNat_ge h) (by have := isPySpace_toNat hs; omega)

theorem hex_not_sign {c : Char} {v : Nat} (h : hexVal c = some v) :
    (c = '+' || c = '-') = false := by
  cases hs : (c = '+' || c = '-') with
  | false => rfl
  | true =>
    exfalso
    have h48 := hexVal_toNat_ge h
    simp only [Bool.or_eq_true, decide_eq_true_eq] at hs
    rcases hs with rfl | rfl <;> exact absurd h48 (by decide)

theorem hexVal_hexDigitLower : ∀ n, n < 16 → hexVal (hexDigitLower n) = some n := by decide

theorem pyFromHex_encode : ∀ (bs : List Nat), (∀ x ∈ bs, x < 256) →
    pyFromHex (hexEncodeBytes bs) = some bs := by
  intro bs
  induction bs with
  | nil => intro _; rfl
  | cons b rest ih =>
    intro h
    have hb : b < 256 := h b (by simp)
    have hdiv : b / 16 < 16 := by omega
    have hmod : b % 16 < 16 := by omega
    have e0 : hexEncodeBytes (b :: rest) =
        hexDigitLower (b / 16) :: hexDigitLower (b % 16) :: hexEncodeBytes rest := by
      simp [hexEncodeBytes, byteToHexLower]
    have e1 := hexVal_hexDigitLower _ hdiv
    have e2 := hexVal_hexDigitLower _ hmod
    have ihr := ih (fun x hx => h x (by simp [hx]))
    rw [e0, pyFromHex, if_neg (by simp [hex_not_space e1])]
    simp [e1, e2, ihr, Nat.div_add_mod]

theorem hexEncodeBytes_length (bs : List Nat) : (hexEncodeBytes bs).length = 2 * bs.length := by
  induction bs with
  | nil => rfl
  | cons b rest ih => simp [hexEncodeBytes, byteToHexLower] at ih ⊢; omega

theorem pyFromHex_allHex : ∀ (n : Nat) (l : List Char), l.length = 2 * n →
    (∀ c ∈ l, (hexVal c).isSome) →
    ∃ bs, pyFromHex l = some bs ∧ bs.length = n ∧ (∀ x ∈ bs, x < 256) := by
  intro n
  induction n with
  | zero =>
    intro l hl _
    have : l = [] := List.eq_nil_of_length_eq_zero (by omega)
    subst this
    exact ⟨[], rfl, rfl, by simp⟩
  | succ m ih =>
    intro l hl hhex
    match l with
    | [] => simp at hl
    | [c] => simp at hl; omega
    | c :: d :: rest =>
      obtain ⟨hi, ehi⟩ := Option.isSome_iff_exists.mp (hhex c (by simp))
      obtain ⟨lo, ehd⟩ := Option.isSome_iff_exists.mp (hhex d (by simp))
      obtain ⟨bs, hbs, hlen, hbd⟩ := ih rest (by simp at hl; omega)
        (fun x hx => hhex x (by simp [hx]))
      refine ⟨(16 * hi + lo) :: bs, ?_, by simp [hlen], ?_⟩
      · rw [pyFromHex, if_neg (by simp [hex_not_space ehi])]
        simp [ehi, ehd, hbs]
      · intro x hx
        rcases List.mem_cons.mp hx with rfl | hx
        · have := hexVal_lt ehi
          have := hexVal_lt ehd
          omega
        · exact hbd x hx

theorem pyFromHex_bounds : ∀ (l : List Char) (bs : List Nat), pyFromHex l = some bs →
    ∀ x ∈ bs, x < 256 := by
  intro l
  induction l using pyFromHex.induct with
  | case1 =>
    intro bs h x hx
    simp [pyFromHex] at h
    subst h
    simp at hx
  | case2 c rest hs ih =>
    intro bs h x hx
    rw [pyFromHex, if_pos hs] at h
    exact ih bs h x hx
  | case3 c rest hs hnone =>
    intro bs h x hx
    rw [pyFromHex, if_neg hs, hnone] at h
    exact Option.noConfusion h
  | case4 c hs hi ehi =>
    intro bs h x hx
    rw [pyFromHex, if_neg hs, ehi] at h
    exact Option.noConfusion h
  | case5 c hs hi ehi d rest2 hnone =>
    intro bs h x hx
    rw [pyFromHex, if_neg hs] at h
    simp [ehi, hnone] at h
  | case6 c hs hi ehi d rest2 lo ehd ih =>
    intro bs h x hx
    rw [pyFromHex, if_neg hs] at h
    simp only [ehi, ehd] at h
    obtain ⟨bs2, hbs2, rfl⟩ := Option.map_eq_some'.mp h
    rcases List.mem_cons.mp hx with rfl | hx
    · have := hexVal_lt ehi
      have := hexVal_lt ehd
      omega
    · exact ih bs2 hbs2 x hx

theorem keccak256_length (m : List Nat) : (keccak256 m).length = 32 := by
  simp [keccak256]

theorem keccak256_bounds (m : List Nat) : ∀ x ∈ keccak256 m, x < 256 := by
  intro x hx
  simp [keccak256] at hx
  obtain ⟨i, _, rfl⟩ := hx
  exact Nat.mod_lt _ (by omega)

theorem messageBytes_long {mh : List Char} (h : 66 < mh.length) :
    messageBytes mh = .ok (keccak256 (utf8Encode mh)) := by
  unfold messageBytes
  rw [if_neg (fun hc => absurd hc.1 (by omega)), if_pos h]

theorem normalizeDigest_long {mh : List Char} (h : 66 < mh.length) :
    normalizeDigest mh = .ok (keccak256 (utf8Encode mh)) := by
  unfold normalizeDigest
  rw [messageBytes_long h]
  simp [keccak256_length]

theorem messageBytes_ok_bounds {mh : List Char} {bs : List Nat}
    (h : messageBytes mh = .ok bs) : ∀ x ∈ bs, x < 256 := by
  unfold messageBytes at h
  split_ifs at h with h1 h2
  · cases e : pyFromHex (mh.drop 2) with
    | none => rw [e] at h; exact Except.noConfusion h
    | some bs2 =>
      rw [e] at h
      injection h with h
      subst h
      exact pyFromHex_bounds _ _ e
  · injection h with h
    subst h
    exact keccak256_bounds _
  · cases e : pyFromHex ((repairShort mh).drop 2) with
    | none => rw [e] at h; exact Except.noConfusion h
    | some bs2 =>
      rw [e] at h
      injection h with h
      subst h
      exact pyFromHex_bounds _ _ e

theorem normalizeDigest_ok {mh : List Char} {bs : List Nat}
    (h : normalizeDigest mh = .ok bs) :
    messageBytes mh = .ok bs ∧ bs.length = 32 := by
  unfold normalizeDigest at h
  cases e : messageBytes mh with
  | error err => rw [e] at h; exact Except.noConfusion h
  | ok bs2 =>
    rw [e] at h
    dsimp only at h
    split_ifs at h with l
    injection h with h
    subst h
    exact ⟨rfl, by omega⟩

theorem normalizeDigest_of_decode32 {mh : List Char} {bs : List Nat}
    (hmb : messageBytes mh = .ok bs) (h32 : bs.length = 32) :
    normalizeDigest mh = .ok bs := by
  unfold normalizeDigest
  rw [hmb]
  simp [h32]

theorem pyZfill_of_hex {l : List Char} {w : Nat}
    (hhex : ∀ c ∈ l, (hexVal c).isSome) :
    pyZfill l w = List.replicate (w - l.length) '0' ++ l := by
  unfold pyZfill
  split_ifs with h
  · simp [Nat.sub_eq_zero_of_le h]
  · cases l with
    | nil => simp
    | cons c rest =>
      obtain ⟨v, e⟩ := Option.isSome_iff_exists.mp (hhex c (by simp))
      simp [hex_not_sign e]

theorem hex_replicate_zero_append {l : List Char} (k : Nat)
    (hhex : ∀ c ∈ l, (hexVal c).isSome) :
    ∀ c ∈ List.replicate k '0' ++ l, (hexVal c).isSome := by
  intro c hc
  rcases List.mem_append.mp hc with h | h
  · rw [List.eq_of_mem_replicate h]; decide
  · exact hhex c h

theorem startsWith0x_false_of_hex {mh : List Char}
    (hhex : ∀ c ∈ mh, (hexVal c).isSome) : startsWith0x mh = false := by
  match mh with
  | [] => rfl
  | [a] => rfl
  | a :: b :: t =>
    by_cases hb : b = 'x'
    · subst hb
      exact absurd (hhex 'x' (by simp)) (by decide)
    · simp [startsWith0x, hb]

theorem normalizeDigest_encode {bs : List Nat} (hlen : bs.length = 32)
    (hbd : ∀ x ∈ bs, x < 256) :
    normalizeDigest ('0' :: 'x' :: hexEncodeBytes bs) = .ok bs := by
  have h66 : ('0' :: 'x' :: hexEncodeBytes bs).length = 66 := by
    simp [hexEncodeBytes_length, hlen]
  apply normalizeDigest_of_decode32 _ hlen
  unfold messageBytes
  rw [if_pos ⟨h66, rfl⟩]
  simp [pyFromHex_encode bs hbd]

theorem repairShort_drop {mh : List Char} (hlen : mh.length < 66)
    (hok : startsWith0x mh = true ∨ mh.length ≤ 64) :
    (repairShort mh).drop 2 = pyZfill (if startsWith0x mh then mh.drop 2 else mh) 64 := by
  unfold repairShort
  cases hpre : startsWith0x mh with
  | true => simp [hpre, hlen]
  | false =>
    have h64 : mh.length ≤ 64 := by
      rcases hok with h | h
      · rw [hpre] at h; exact Bool.noConfusion h
      · exact h
    by_cases hlt : mh.length < 64
    · have hc : mh.length + 1 + 1 < 66 := by omega
      simp [hpre, hc]
    · have hc : ¬ (mh.length + 1 + 1 < 66) := by omega
      have hz : pyZfill mh 64 = mh := by unfold pyZfill; rw [if_pos (by omega)]
      simp [hpre, hc, hz]

theorem normalizeDigest_short {mh : List Char} (hlen : mh.length < 66)
    (hok : startsWith0x mh = true ∨ mh.length ≤ 64)
    (hhex : ∀ c ∈ (if startsWith0x mh then mh.drop 2 else mh), (hexVal c).isSome) :
    ∃ bs, pyFromHex (pyZfill (if startsWith0x mh then mh.drop 2 else mh) 64) = some bs ∧
      normalizeDigest mh = .ok bs ∧ bs.length = 32 := by
  have hplen : (if startsWith0x mh then mh.drop 2 else mh).length ≤ 64 := by
    cases hpre : startsWith0x mh with
    | true => simp; omega
    | false =>
      simp
      rcases hok with h | h
      · rw [hpre] at h; exact Bool.noConfusion h
      · exact h
  have hz := pyZfill_of_hex (w := 64) hhex
  have hzlen : (pyZfill (if startsWith0x mh then mh.drop 2 else mh) 64).length = 64 := by
    rw [hz]; simp; omega
  have hzhex : ∀ c ∈ pyZfill (if startsWith0x mh then mh.drop 2 else mh) 64,
      (hexVal c).isSome := by
    rw [hz]; exact hex_replicate_zero_append _ hhex
  obtain ⟨bs, hbs, hbslen, _⟩ := pyFromHex_allHex 32 _ (by simp [hzlen]) hzhex
  refine ⟨bs, hbs, ?_, hbslen⟩
  apply normalizeDigest_of_decode32 _ hbslen
  unfold messageBytes
  rw [if_neg (fun hc => absurd hc.1 (by omega)), if_neg (by omega),
    repairShort_drop hlen hok, hbs]

theorem normalizeDigest_hex66 {mh : List Char} (hlen : mh.length = 66)
    (hhex : ∀ c ∈ mh, (hexVal c).isSome) :
    normalizeDigest mh = .error (.invalidDigestLength 33) := by
  have hpre := startsWith0x_false_of_hex hhex
  obtain ⟨bs, hbs, hbslen, _⟩ := pyFromHex_allHex 33 mh (by omega) hhex
  have hrs : (repairShort mh).drop 2 = mh := by
    unfold repairShort
    have hc : ¬ (mh.length + 1 + 1 < 66) := by omega
    simp [hpre, hc]
  unfold normalizeDigest messageBytes
  rw [if_neg (fun hc => by rw [hpre] at hc; exact Bool.noConfusion hc.2),
    if_neg (by omega), hrs, hbs]
  simp [hbslen]

/-- C4 (amended): for every input string, digest normalization either
returns exactly 32 bytes, or fails with the `InvalidDigestLength` error of
the final length check, or fails with the `ValueError` that `bytes.fromhex`
raises on non-hexadecimal payloads; no value of any other length is ever
returned. -/
theorem c4_digest_length_or_error (mh : List Char) :
    (∃ bs, normalizeDigest mh = .ok bs ∧ bs.length = 32) ∨
    (∃ n, normalizeDigest mh = .error (.invalidDigestLength n)) ∨
    normalizeDigest mh = .error .hexDecodeError := by
  cases e : normalizeDigest mh with
  | ok bs => exact .inl ⟨bs, rfl, (normalizeDigest_ok e).2⟩
  | error err =>
    cases err with
    | invalidDigestLength n => exact .inr (.inl ⟨n, rfl⟩)
    | hexDecodeError => exact .inr (.inr rfl)

/-- C4 counterexample: on the 66-character input `"0x" + "z" * 64` digest
normalization fails with the hex-decoding error, not with
`InvalidDigestLength`, refuting the claim that every failure is the
`InvalidDigestLength` error. -/
theorem c4_nonhex_error :
    normalizeDigest ('0' :: 'x' :: List.replicate 64 'z') = .error .hexDecodeError := by
  rfl

/-- C5: for every 32-byte value, normalizing `"0x"` followed by its
64-character hex encoding yields exactly those bytes, and normalization is
idempotent: normalizing the hex encoding of any already-normalized digest
yields the same bytes. -/
theorem c5_roundtrip_idempotent :
    (∀ bs : List Nat, bs.length = 32 → (∀ x ∈ bs, x < 256) →
      normalizeDigest ('0' :: 'x' :: hexEncodeBytes bs) = .ok bs) ∧
    (∀ (mh : List Char) (bs : List Nat), normalizeDigest mh = .ok bs →
      normalizeDigest ('0' :: 'x' :: hexEncodeBytes bs) = .ok bs) := by
  constructor
  · exact fun bs h1 h2 => normalizeDigest_encode h1 h2
  · intro mh bs h
    obtain ⟨hmb, hlen⟩ := normalizeDigest_ok h
    exact normalizeDigest_encode hlen (messageBytes_ok_bounds hmb)

theorem c5_roundtrip_idempotent_witness :
    (List.replicate 32 0).length = 32 ∧
    normalizeDigest ('0' :: 'x' :: hexEncodeBytes (List.replicate 32 0)) =
      .ok (List.replicate 32 0) :=
  ⟨by decide, c5_roundtrip_idempotent.1 _ (by decide) (by decide)⟩

/-- C6: for every input string strictly longer than 66 characters, digest
normalization applies keccak-256 to the UTF-8 encoding of the input instead
of decoding it, producing exactly 32 bytes. -/
theorem c6_long_input_hashed (mh : List Char) (h : 66 < mh.length) :
    normalizeDigest mh = .ok (keccak256 (utf8Encode mh)) ∧
    (keccak256 (utf8Encode mh)).length = 32 :=
  ⟨normalizeDigest_long h, keccak256_length _⟩

theorem c6_long_input_hashed_witness :
    66 < (List.replicate 67 'q').length ∧
    (normalizeDigest (List.replicate 67 'q') =
        .ok (keccak256 (utf8Encode (List.replicate 67 'q'))) ∧
      (keccak256 (utf8Encode (List.replicate 67 'q'))).length = 32) :=
  ⟨by decide, c6_long_input_hashed _ (by decide)⟩

/-- C7 (amended): for every hex input string shorter than 66 characters —
provided the string with a `0x` prefix added (when absent) is at most 66
characters, i.e. excluding unprefixed inputs of exactly 65 hex digits —
digest normalization left-pads the hex payload (the part after the `0x`
prefix, adding the prefix first if absent) with zero nibbles to 64 hex
characters and decodes it to 32 bytes; the output is unique, so two
separate calls with the same short input produce identical 32-byte
output. -/
theorem c7_short_input_padded (mh : List Char) (hlen : mh.length < 66)
    (hok : startsWith0x mh = true ∨ mh.length ≤ 64)
    (hhex : ∀ c ∈ (if startsWith0x mh then mh.drop 2 else mh), (hexVal c).isSome) :
    ∃ bs, pyFromHex (pyZfill (if startsWith0x mh then mh.drop 2 else mh) 64) = some bs ∧
      normalizeDigest mh = .ok bs ∧ bs.length = 32 ∧
      ∀ bs2, normalizeDigest mh = .ok bs2 → bs2 = bs := by
  obtain ⟨bs, h1, h2, h3⟩ := normalizeDigest_short hlen hok hhex
  refine ⟨bs, h1, h2, h3, fun bs2 h4 => ?_⟩
  rw [h2] at h4
  injection h4 with h4
  exact h4.symm

theorem c7_short_input_padded_witness :
    ('0' :: 'x' :: ['1', '2', '3', '4']).length < 66 ∧
    ∃ bs, pyFromHex (pyZfill (if startsWith0x ('0' :: 'x' :: ['1', '2', '3', '4']) then
        ('0' :: 'x' :: ['1', '2', '3', '4']).drop 2 else
        ('0' :: 'x' :: ['1', '2', '3', '4'])) 64) = some bs ∧
      normalizeDigest ('0' :: 'x' :: ['1', '2', '3', '4']) = .ok bs ∧ bs.length = 32 ∧
      ∀ bs2, normalizeDigest ('0' :: 'x' :: ['1', '2', '3', '4']) = .ok bs2 → bs2 = bs :=
  ⟨by decide, c7_short_input_padded _ (by decide) (.inl (by decide)) (by decide)⟩

/-- C7 counterexample: the all-hex input `"1" * 65` is shorter than 66
characters, yet digest normalization fails with the hex-decoding error
(after prefixing, the 67-character string skips the zero-fill and its 65
hex digits are an odd count), refuting the claim that every short hex
input is padded and decoded to 32 bytes. -/
theorem c7_counterexample :
    (List.replicate 65 '1').length < 66 ∧
    (List.replicate 65 '1').all (fun c => (hexVal c).isSome) = true ∧
    normalizeDigest (List.replicate 65 '1') = .error .hexDecodeError :=
  ⟨by decide, by decide, by rfl⟩

/-- C9: the long-input fallback hashes the UTF-8 encoding of the input
string itself, preserving letter case: the two inputs `"0x" + "a" * 68` and
`"0x" + "A" * 68` are longer than 66 characters and denote the same byte
sequence in hex, yet normalization produces two different 32-byte
digests. -/
theorem c9_case_sensitive_hash :
    66 < ('0' :: 'x' :: List.replicate 68 'a').length ∧
    66 < ('0' :: 'x' :: List.replicate 68 'A').length ∧
    pyFromHex (('0' :: 'x' :: List.replicate 68 'a').drop 2) =
      pyFromHex (('0' :: 'x' :: List.replicate 68 'A').drop 2) ∧
    (pyFromHex (('0' :: 'x' :: List.replicate 68 'a').drop 2)).isSome = true ∧
    normalizeDigest ('0' :: 'x' :: List.replicate 68 'a') =
      .ok (keccak256 (utf8Encode ('0' :: 'x' :: List.replicate 68 'a'))) ∧
    normalizeDigest ('0' :: 'x' :: List.replicate 68 'A') =
      .ok (keccak256 (utf8Encode ('0' :: 'x' :: List.replicate 68 'A'))) ∧
    keccak256 (utf8Encode ('0' :: 'x' :: List.replicate 68 'a')) ≠
      keccak256 (utf8Encode ('0' :: 'x' :: List.replicate 68 'A')) :=
  ⟨by decide, by decide, by decide, by decide,
    normalizeDigest_long (by decide), normalizeDigest_long (by decide), by decide⟩

/-- C10 (amended): every 66-character input string consisting of hex digits
(such a string cannot start with `0x`) gains a `0x` prefix, its full 66
characters decode to 33 bytes, and the final length check rejects the
result with the 32-byte length error. -/
theorem c10_hex66_length_error (mh : List Char) (hlen : mh.length = 66)
    (hhex : ∀ c ∈ mh, (hexVal c).isSome) :
    normalizeDigest mh = .error (.invalidDigestLength 33) :=
  normalizeDigest_hex66 hlen hhex

theorem c10_hex66_length_error_witness :
    (List.replicate 66 '0').length = 66 ∧
    normalizeDigest (List.replicate 66 '0') = .error (.invalidDigestLength 33) :=
  ⟨by decide, c10_hex66_length_error _ (by decide) (by decide)⟩

/-- C10 counterexample: the 66-character input `"z" * 66` does not start
with `0x`, but digest normalization fails with the hex-decoding error
rather than the 32-byte length error, refuting the claim for arbitrary
66-character inputs. -/
theorem c10_counterexample :
    (List.replicate 66 'z').length = 66 ∧
    startsWith0x (List.replicate 66 'z') = false ∧
    normalizeDigest (List.replicate 66 'z') = .error .hexDecodeError :=
  ⟨by decide, by decide, by rfl⟩

theorem toBytesBE_length (len n : Nat) : (toBytesBE len n).length = len := by
  induction len with
  | zero => rfl
  | succ m ih => simp [toBytesBE, ih]

theorem toBytesBE_foldl : ∀ (len n acc : Nat),
    (toBytesBE len n).foldl (fun a b => 256 * a + b) acc =
      acc * 2 ^ (8 * len) + n % 2 ^ (8 * len) := by
  intro len
  induction len with
  | zero => intro n acc; simp [toBytesBE, Nat.mod_one]
  | succ m ih =>
    intro n acc
    rw [toBytesBE, List.foldl_cons, ih]
    have h1 : n >>> (8 * m) = n / 2 ^ (8 * m) := Nat.shiftRight_eq_div_pow n (8 * m)
    have h2 : 2 ^ (8 * (m + 1)) = 2 ^ (8 * m) * 256 := by
      rw [show 8 * (m + 1) = 8 * m + 8 by ring, pow_add]
      norm_num
    rw [h1, h2, Nat.mod_mul]
    ring

theorem beBytesToNat_toBytesBE {len n : Nat} (h : n < 2 ^ (8 * len)) :
    beBytesToNat (toBytesBE len n) = n := by
  unfold beBytesToNat
  rw [toBytesBE_foldl]
  simp [Nat.mod_eq_of_lt h]

/-- C8: for every successfully signed digest, with `r` and `s` below
`2 ^ 256` and the recovery byte `v` normalized by the signing library to 27
or 28, the serialized signature is 65 bytes laid out as big-endian
`r (32) || s (32) || v (1)` (the two 32-byte fields decode back to `r` and
`s`), and its text form is a 132-character hex string with a `0x`
prefix whose final byte is one of the two canonical values. -/
theorem c8_signature_format (r s v : Nat) (hr : r < 2 ^ 256) (hs : s < 2 ^ 256)
    (hv : v = 27 ∨ v = 28) :
    (serializeSignature r s v).length = 65 ∧
    (serializeSignature r s v).take 32 = toBytesBE 32 r ∧
    beBytesToNat ((serializeSignature r s v).take 32) = r ∧
    beBytesToNat (((serializeSignature r s v).drop 32).take 32) = s ∧
    (serializeSignature r s v).drop 64 = [v] ∧
    (v = 27 ∨ v = 28) ∧
    (sigToHexText (serializeSignature r s v)).length = 132 ∧
    startsWith0x (sigToHexText (serializeSignature r s v)) = true := by
  have lr := toBytesBE_length 32 r
  have ls := toBytesBE_length 32 s
  have htake : (serializeSignature r s v).take 32 = toBytesBE 32 r := by
    unfold serializeSignature
    have := List.take_left (toBytesBE 32 r) (toBytesBE 32 s ++ [v])
    rw [lr] at this
    exact this
  have hdrop : (serializeSignature r s v).drop 32 = toBytesBE 32 s ++ [v] := by
    unfold serializeSignature
    have := List.drop_left (toBytesBE 32 r) (toBytesBE 32 s ++ [v])
    rw [lr] at this
    exact this
  have htake2 : ((serializeSignature r s v).drop 32).take 32 = toBytesBE 32 s := by
    rw [hdrop]
    have := List.take_left (toBytesBE 32 s) [v]
    rw [ls] at this
    exact this
  have hlen : (serializeSignature r s v).length = 65 := by
    simp [serializeSignature, lr, ls]
  refine ⟨hlen, htake, ?_, ?_, ?_, hv, ?_, rfl⟩
  · rw [htake]
    exact beBytesToNat_toBytesBE (by simpa using hr)
  · rw [htake2]
    exact beBytesToNat_toBytesBE (by simpa using hs)
  · rw [show (64 : Nat) = 32 + 32 from rfl, ← List.drop_drop, hdrop]
    have := List.drop_left (toBytesBE 32 s) [v]
    rw [ls] at this
    exact this
  · simp [sigToHexText, hexEncodeBytes_length, hlen]

theorem c8_signature_format_witness :
    (1 : Nat) < 2 ^ 256 ∧ (2 : Nat) < 2 ^ 256 ∧ ((27 : Nat) = 27 ∨ (27 : Nat) = 28) ∧
    ((serializeSignature 1 2 27).length = 65 ∧
      (serializeSignature 1 2 27).take 32 = toBytesBE 32 1 ∧
      beBytesToNat ((serializeSignature 1 2 27).take 32) = 1 ∧
      beBytesToNat (((serializeSignature 1 2 27).drop 32).take 32) = 2 ∧
      (serializeSignature 1 2 27).drop 64 = [27] ∧
      ((27 : Nat) = 27 ∨ (27 : Nat) = 28) ∧
      (sigToHexText (serializeSignature 1 2 27)).length = 132 ∧
      startsWith0x (sigToHexText (serializeSignature 1 2 27)) = true) :=
  ⟨by norm_num, by norm_num, .inl rfl,
    c8_signature_format 1 2 27 (by norm_num) (by norm_num) (.inl rfl)⟩

/-- C1: when a signer identity already has an accepted signature recorded,
a (valid) resubmission by the same identity is rejected with
`DuplicateSigner`, the post-state equals the pre-state, and in particular
the collected signature count is unchanged — rejection mutates no quorum
state. -/
theorem c1_duplicate_rejected (verify : String → List Nat → Bool)
    (qs : QuorumState) (signerId : String) (sig : List Nat)
    (hv : verify signerId sig = true) (hmem : signerId ∈ qs.collected) :
    (submit verify qs signerId sig).1 = .error .duplicateSigner ∧
    (submit verify qs signerId sig).2 = qs ∧
    (submit verify qs signerId sig).2.count = qs.count := by
  unfold submit
  rw [if_neg (by simp [hv]), if_pos hmem]
  exact ⟨rfl, rfl, rfl⟩

theorem c1_duplicate_rejected_witness :
    (fun (_ : String) (_ : List Nat) => true) "a" [] = true ∧
    "a" ∈ (⟨4, 5, ["a"], false⟩ : QuorumState).collected ∧
    ((submit (fun _ _ => true) ⟨4, 5, ["a"], false⟩ "a" []).1 = .error .duplicateSigner ∧
      (submit (fun _ _ => true) ⟨4, 5, ["a"], false⟩ "a" []).2 = ⟨4, 5, ["a"], false⟩ ∧
      (submit (fun _ _ => true) ⟨4, 5, ["a"], false⟩ "a" []).2.count =
        (⟨4, 5, ["a"], false⟩ : QuorumState).count) :=
  ⟨rfl, by simp, c1_duplicate_rejected (fun _ _ => true) _ "a" [] rfl (by simp)⟩

/-- C2: calling execute below the threshold fails with `QuorumNotMet` and
triggers no execution (the state is unchanged); once the threshold is
reached, one execute call succeeds and moves the proposal to `Executed`;
any subsequent execute call fails with `AlreadyExecuted`; and no
transition — neither execute nor submit — ever leaves `Executed`. -/
theorem c2_execute_lifecycle :
    (∀ qs : QuorumState, qs.hasExecuted = false → qs.count < qs.threshold →
      executeQuorum qs = (.error .quorumNotMet, qs)) ∧
    (∀ qs : QuorumState, qs.hasExecuted = false → qs.threshold ≤ qs.count →
      (executeQuorum qs).1 = .ok () ∧
      (executeQuorum qs).2.status = .Executed ∧
      executeQuorum (executeQuorum qs).2 =
        (.error .alreadyExecuted, (executeQuorum qs).2)) ∧
    (∀ qs : QuorumState, qs.status = .Executed →
      executeQuorum qs = (.error .alreadyExecuted, qs) ∧
      ∀ verify signerId sig, (submit verify qs signerId sig).2.status = .Executed) := by
  refine ⟨?_, ?_, ?_⟩
  · intro qs h1 h2
    unfold executeQuorum
    rw [if_neg (by simp [h1]), if_pos h2]
  · intro qs h1 h2
    unfold executeQuorum
    rw [if_neg (by simp [h1]), if_neg (by omega)]
    refine ⟨rfl, rfl, ?_⟩
    simp
  · intro qs h
    have he : qs.hasExecuted = true := by
      unfold QuorumState.status at h
      by_cases e : qs.hasExecuted
      · exact e
      · rw [if_neg (by simp [e])] at h
        split_ifs at h
    refine ⟨?_, ?_⟩
    · unfold executeQuorum
      rw [if_pos he]
    · intro verify signerId sig
      unfold submit
      split_ifs <;> simp [QuorumState.status, he]

theorem c2_execute_lifecycle_witness :
    executeQuorum ⟨4, 5, ["a", "b", "c"], false⟩ =
      (.error .quorumNotMet, ⟨4, 5, ["a", "b", "c"], false⟩) ∧
    ((executeQuorum ⟨4, 5, ["a", "b", "c", "d"], false⟩).1 = .ok () ∧
      (executeQuorum ⟨4, 5, ["a", "b", "c", "d"], false⟩).2.status = .Executed ∧
      executeQuorum (executeQuorum ⟨4, 5, ["a", "b", "c", "d"], false⟩).2 =
        (.error .alreadyExecuted, (executeQuorum ⟨4, 5, ["a", "b", "c", "d"], false⟩).2)) ∧
    (executeQuorum ⟨4, 5, ["a", "b", "c", "d"], true⟩ =
        (.error .alreadyExecuted, ⟨4, 5, ["a", "b", "c", "d"], true⟩) ∧
      (submit (fun _ _ => false) ⟨4, 5, ["a", "b", "c", "d"], true⟩ "e" []).2.status =
        .Executed) :=
  ⟨c2_execute_lifecycle.1 _ rfl (by decide),
   c2_execute_lifecycle.2.1 _ rfl (by decide),
   (c2_execute_lifecycle.2.2 _ (by decide)).1,
   (c2_execute_lifecycle.2.2 _ (by decide)).2 (fun _ _ => false) "e" []⟩

theorem submitAll_fresh (verify : String → List Nat → Bool) (sigOf : String → List Nat) :
    ∀ (ids : List String) (qs : QuorumState), ids.Nodup →
      (∀ signerId ∈ ids, verify signerId (sigOf signerId) = true) →
      (∀ signerId ∈ ids, signerId ∉ qs.collected) →
      submitAll verify sigOf qs ids = { qs with collected := qs.collected ++ ids } := by
  intro ids
  induction ids with
  | nil => intro qs _ _ _; simp [submitAll]
  | cons signerId rest ih =>
    intro qs hnd hv hf
    have h1 : verify signerId (sigOf signerId) = true := hv _ (by simp)
    have h2 : signerId ∉ qs.collected := hf _ (by simp)
    have step : (submit verify qs signerId (sigOf signerId)).2 =
        { qs with collected := qs.collected ++ [signerId] } := by
      unfold submit
      rw [if_neg (by simp [h1]), if_neg h2]
    unfold submitAll at ih ⊢
    rw [List.foldl_cons, step,
      ih _ (List.Nodup.of_cons hnd) (fun j hj => hv j (by simp [hj]))
        (fun j hj => by
          simp only [List.mem_append, List.mem_singleton]
          rintro (hc | rfl)
          · exact hf j (by simp [hj]) hc
          · exact (List.nodup_cons.mp hnd).1 hj)]
    simp

/-- C3: starting from the freshly created collector, for every list of
`threshold` distinct valid signers — hence for every permutation of their
submissions — every submission is accepted (the collected identities are
exactly the submitted list), the collector holds exactly `threshold`
signatures, and its state is `Ready`; and any permutation of the
submissions yields the same count and the same state, so arrival order
never changes the outcome. -/
theorem c3_order_independent_quorum (verify : String → List Nat → Bool)
    (sigOf : String → List Nat) (t n : Nat) (ids : List String)
    (hnd : ids.Nodup) (hlen : ids.length = t)
    (hv : ∀ signerId ∈ ids, verify signerId (sigOf signerId) = true) :
    (submitAll verify sigOf (initialQuorum t n) ids).collected = ids ∧
    (submitAll verify sigOf (initialQuorum t n) ids).count = t ∧
    (submitAll verify sigOf (initialQuorum t n) ids).status = .Ready ∧
    (∀ ids2 : List String, ids2.Perm ids →
      (submitAll verify sigOf (initialQuorum t n) ids2).count =
        (submitAll verify sigOf (initialQuorum t n) ids).count ∧
      (submitAll verify sigOf (initialQuorum t n) ids2).status =
        (submitAll verify sigOf (initialQuorum t n) ids).status) := by
  have key : ∀ (l : List String), l.Nodup →
      (∀ signerId ∈ l, verify signerId (sigOf signerId) = true) →
      submitAll verify sigOf (initialQuorum t n) l =
        { threshold := t, totalSigners := n, collected := l, hasExecuted := false } := by
    intro l hl hvl
    rw [submitAll_fresh verify sigOf l (initialQuorum t n) hl hvl
      (fun j _ => by simp [initialQuorum])]
    simp [initialQuorum]
  have e1 := key ids hnd hv
  refine ⟨by rw [e1], by rw [e1]; simp [QuorumState.count, hlen], ?_, ?_⟩
  · rw [e1]
    simp [QuorumState.status, QuorumState.count, hlen]
  · intro ids2 hperm
    have e2 := key ids2 (hperm.nodup_iff.mpr hnd)
      (fun j hj => hv j (hperm.mem_iff.mp hj))
    rw [e1, e2]
    simp [QuorumState.status, QuorumState.count, hperm.length_eq, hlen]

theorem c3_order_independent_quorum_witness :
    (["a", "b"] : List String).Nodup ∧ (["a", "b"] : List String).length = 2 ∧
    (submitAll (fun _ _ => true) (fun _ => []) (initialQuorum 2 5) ["a", "b"]).collected =
      ["a", "b"] ∧
    (submitAll (fun _ _ => true) (fun _ => []) (initialQuorum 2 5) ["a", "b"]).count = 2 ∧
    (submitAll (fun _ _ => true) (fun _ => []) (initialQuorum 2 5) ["a", "b"]).status =
      .Ready ∧
    (submitAll (fun _ _ => true) (fun _ => []) (initialQuorum 2 5) ["b", "a"]).count =
      (submitAll (fun _ _ => true) (fun _ => []) (initialQuorum 2 5) ["a", "b"]).count ∧
    (submitAll (fun _ _ => true) (fun _ => []) (initialQuorum 2 5) ["b", "a"]).status =
      (submitAll (fun _ _ => true) (fun _ => []) (initialQuorum 2 5) ["a", "b"]).status := by
  have h := c3_order_independent_quorum (fun _ _ => true) (fun _ => []) 2 5 ["a", "b"]
    (by decide) (by decide) (fun _ _ => rfl)
  exact ⟨by decide, by decide, h.1, h.2.1, h.2.2.1,
    (h.2.2.2 ["b", "a"] (by decide)).1, (h.2.2.2 ["b", "a"] (by decide)).2⟩
